import Mathlib

/-!
Shallow embedding of the solana multisig wallet program (src/lib.rs) and
verification of its specification claims.

Bytes are modelled as `Fin 256`, machine integers as `Nat` with explicit
`% 2 ^ 64` where the Rust code performs wrapping arithmetic (release-mode
`u64` addition). Borsh (de)serialization is modelled byte-exactly:
little-endian fixed-width integers, `u32` length prefixes on vectors,
one byte per `bool`, raw 32 bytes per public key, and exact consumption
for `try_from_slice`. Fallible operations return `Option` or an explicit
error component mirroring `ProgramError`.
-/

namespace MultisigWallet

/-- A byte, as stored in account data and instruction data. -/
abbrev Byte := Fin 256

/-- Truncate a natural number to one byte, as Rust `as u8` and the
little-endian byte extraction of borsh integer encoding do. -/
def natToByte (n : Nat) : Byte := ⟨n % 256, Nat.mod_lt _ (by norm_num)⟩

/-- Borsh little-endian encoding of a `u32` value. -/
def encodeU32 (n : Nat) : List Byte :=
  [natToByte n, natToByte (n / 2 ^ 8), natToByte (n / 2 ^ 16), natToByte (n / 2 ^ 24)]

/-- Borsh little-endian encoding of a `u64` value. -/
def encodeU64 (n : Nat) : List Byte :=
  [natToByte n, natToByte (n / 2 ^ 8), natToByte (n / 2 ^ 16), natToByte (n / 2 ^ 24),
   natToByte (n / 2 ^ 32), natToByte (n / 2 ^ 40), natToByte (n / 2 ^ 48), natToByte (n / 2 ^ 56)]

/-- Borsh encoding of a `bool`: one byte, `0` or `1`. -/
def boolByte (b : Bool) : Byte := if b then 1 else 0

/-- Read one byte from the input, returning it with the remaining bytes. -/
def readByte : List Byte → Option (Byte × List Byte)
  | [] => none
  | b :: rest => some (b, rest)

/-- Read exactly `n` bytes from the input. -/
def readBytes : Nat → List Byte → Option (List Byte × List Byte)
  | 0, l => some ([], l)
  | _ + 1, [] => none
  | n + 1, b :: l =>
    match readBytes n l with
    | none => none
    | some (v, r) => some (b :: v, r)

/-- Borsh decoding of a little-endian `u32`. -/
def readU32 : List Byte → Option (Nat × List Byte)
  | b0 :: b1 :: b2 :: b3 :: r =>
    some (b0.val + 2 ^ 8 * b1.val + 2 ^ 16 * b2.val + 2 ^ 24 * b3.val, r)
  | _ => none

/-- Borsh decoding of a little-endian `u64`. -/
def readU64 : List Byte → Option (Nat × List Byte)
  | b0 :: b1 :: b2 :: b3 :: b4 :: b5 :: b6 :: b7 :: r =>
    some (b0.val + 2 ^ 8 * b1.val + 2 ^ 16 * b2.val + 2 ^ 24 * b3.val +
          2 ^ 32 * b4.val + 2 ^ 40 * b5.val + 2 ^ 48 * b6.val + 2 ^ 56 * b7.val, r)
  | _ => none

/-- Borsh decoding of a `bool`: the byte must be `0` or `1`. -/
def readBool : List Byte → Option (Bool × List Byte)
  | [] => none
  | b :: r => if b.val = 0 then some (false, r) else if b.val = 1 then some (true, r) else none

/-- Read `n` consecutive values with the element reader `p`, as borsh does
for the elements of a length-prefixed vector. -/
def readList (p : List Byte → Option (α × List Byte)) :
    Nat → List Byte → Option (List α × List Byte)
  | 0, l => some ([], l)
  | n + 1, l =>
    match p l with
    | none => none
    | some (a, r) =>
      match readList p n r with
      | none => none
      | some (as, r2) => some (a :: as, r2)

/-- A public key is 32 raw bytes (`Pubkey` in the source). -/
abbrev Pubkey := List Byte

/-- The system program id: 32 zero bytes. -/
def systemProgramId : Pubkey := List.replicate 32 (0 : Byte)

/-- The `MultisigInstruction` enum of the source. -/
inductive MultisigInstruction where
  | create (owners : List Pubkey) (threshold : Byte)
  | sign
  | execute (amount : Nat) (destination : Pubkey)
  deriving DecidableEq

/-- Borsh serialization of `MultisigInstruction`: a one-byte variant
discriminant followed by the fields. -/
def encodeInstruction : MultisigInstruction → List Byte
  | .create owners threshold =>
    (0 : Byte) :: (encodeU32 owners.length ++ owners.flatten ++ [threshold])
  | .sign => [(1 : Byte)]
  | .execute amount destination =>
    (2 : Byte) :: (encodeU64 amount ++ destination)

/-- Borsh `try_from_slice` for `MultisigInstruction`: decode with exact
consumption, failing on truncated input, unknown discriminant, or
leftover bytes. -/
def decodeInstruction (l : List Byte) : Option MultisigInstruction :=
  match l with
  | [] => none
  | t :: r =>
    if t.val = 0 then
      match readU32 r with
      | none => none
      | some (n, r1) =>
        match readList (readBytes 32) n r1 with
        | none => none
        | some (owners, r2) =>
          match readByte r2 with
          | none => none
          | some (threshold, r3) =>
            if r3 = [] then some (.create owners threshold) else none
    else if t.val = 1 then
      if r = [] then some .sign else none
    else if t.val = 2 then
      match readU64 r with
      | none => none
      | some (amount, r1) =>
        match readBytes 32 r1 with
        | none => none
        | some (destination, r2) =>
          if r2 = [] then some (.execute amount destination) else none
    else none

/-- The persisted `Multisig` record of the source. -/
structure Multisig where
  owners : List Pubkey
  threshold : Byte
  signers : List Bool
  deriving DecidableEq

/-- Borsh serialization of `Multisig`: `owners` as a u32 length prefix
followed by the 32-byte keys, `threshold` as one byte, `signers` as a u32
length prefix followed by one byte per flag. -/
def serializeMultisig (m : Multisig) : List Byte :=
  encodeU32 m.owners.length ++ m.owners.flatten ++ [m.threshold] ++
  encodeU32 m.signers.length ++ m.signers.map boolByte

/-- Borsh `try_from_slice` for `Multisig`: decode with exact consumption. -/
def deserializeMultisig (l : List Byte) : Option Multisig :=
  match readU32 l with
  | none => none
  | some (n, r1) =>
    match readList (readBytes 32) n r1 with
    | none => none
    | some (owners, r2) =>
      match readByte r2 with
      | none => none
      | some (threshold, r3) =>
        match readU32 r3 with
        | none => none
        | some (k, r4) =>
          match readList readBool k r4 with
          | none => none
          | some (signers, r5) =>
            if r5 = [] then some ⟨owners, threshold, signers⟩ else none

/-- The error kinds the program can produce (the subset of
`ProgramError` reachable from src/lib.rs), plus `panicked`, which models a
Rust panic aborting the instruction (reachable only through an
out-of-bounds `signers[index]` write in `process_sign`). -/
inductive ProgramError where
  | incorrectProgramId
  | invalidAccountData
  | invalidArgument
  | missingRequiredSignature
  | accountDataTooSmall
  | insufficientFunds
  | borshIoError
  | panicked
  deriving DecidableEq

/-- The fields of `AccountInfo` the program reads or writes: address,
transaction-level signature flag, writability flag, lamport balance, and
the account data bytes. -/
structure AccountInfo where
  key : Pubkey
  isSigner : Bool
  isWritable : Bool
  lamports : Nat
  data : List Byte
  deriving DecidableEq

/-- Write serialized bytes over the front of a fixed-capacity buffer, as
`serialize(&mut &mut data[..])` does: fails when the buffer is too small,
otherwise overwrites the prefix and leaves any trailing bytes unchanged. -/
def writeBytes (bytes buf : List Byte) : Option (List Byte) :=
  if bytes.length ≤ buf.length then some (bytes ++ buf.drop bytes.length) else none

/-- The `process_create` handler: check writability, validate
`1 ≤ threshold ≤ owners.len()`, build the record with all approval flags
`false`, and serialize it into the account data buffer. -/
def processCreate (multisigAcc : AccountInfo) (owners : List Pubkey) (threshold : Byte) :
    Except ProgramError AccountInfo :=
  if !multisigAcc.isWritable then .error .invalidAccountData
  else if threshold.val = 0 ∨ owners.length < threshold.val then .error .invalidArgument
  else
    let multisig : Multisig := ⟨owners, threshold, List.replicate owners.length false⟩
    match writeBytes (serializeMultisig multisig) multisigAcc.data with
    | none => .error .borshIoError
    | some data1 => .ok { multisigAcc with data := data1 }

/-- The `process_sign` handler: require the signer flag, deserialize the
record, locate the signer among the owners, set its approval flag, check
the required space, and serialize the record back. The out-of-range
indexed write `signers[index] = true` is a Rust panic, modelled as
`panicked`. -/
def processSign (signer multisigAcc : AccountInfo) : Except ProgramError AccountInfo :=
  if !signer.isSigner then .error .missingRequiredSignature
  else
    match deserializeMultisig multisigAcc.data with
    | none => .error .borshIoError
    | some multisig =>
      match multisig.owners.findIdx? (fun owner => owner = signer.key) with
      | none => .error .invalidArgument
      | some index =>
        if multisig.signers.length ≤ index then .error .panicked
        else
          let multisig1 : Multisig := { multisig with signers := multisig.signers.set index true }
          let requiredSpace := (serializeMultisig multisig1).length
          if multisigAcc.data.length < requiredSpace then .error .accountDataTooSmall
          else
            match writeBytes (serializeMultisig multisig1) multisigAcc.data with
            | none => .error .borshIoError
            | some data1 => .ok { multisigAcc with data := data1 }

/-- The `process_execute` handler. The result is the error produced (or
`none` for success) together with the final multisig and destination
accounts: the lamport debit and credit happen before the record is
serialized back, so an error in that final write leaves the balances
already mutated, and the state must be returned on every path to express
this. The credit is an unchecked release-mode `u64` addition, hence the
`% 2 ^ 64`; the debit is guarded by the balance check. -/
def processExecute (multisigAcc destinationAcc systemAcc : AccountInfo)
    (amount : Nat) (destination : Pubkey) :
    Option ProgramError × AccountInfo × AccountInfo :=
  if !multisigAcc.isWritable then (some .invalidAccountData, multisigAcc, destinationAcc)
  else if destinationAcc.key ≠ destination then (some .invalidArgument, multisigAcc, destinationAcc)
  else if systemAcc.key ≠ systemProgramId then (some .invalidArgument, multisigAcc, destinationAcc)
  else
    match deserializeMultisig multisigAcc.data with
    | none => (some .borshIoError, multisigAcc, destinationAcc)
    | some multisig =>
      if multisig.signers.count true < multisig.threshold.val then
        (some .insufficientFunds, multisigAcc, destinationAcc)
      else if multisigAcc.lamports < amount then
        (some .insufficientFunds, multisigAcc, destinationAcc)
      else
        let multisigAcc1 := { multisigAcc with lamports := multisigAcc.lamports - amount }
        let destinationAcc1 :=
          { destinationAcc with lamports := (destinationAcc.lamports + amount) % 2 ^ 64 }
        let updated : Multisig :=
          { multisig with signers := List.replicate multisig.owners.length false }
        match writeBytes (serializeMultisig updated) multisigAcc1.data with
        | none => (some .borshIoError, multisigAcc1, destinationAcc1)
        | some data1 => (none, { multisigAcc1 with data := data1 }, destinationAcc1)

/-- Canonicity of records produced by decoding: owner count and flag
count fit in a `u32` and every owner key is exactly 32 bytes. -/
def WFMultisig (m : Multisig) : Prop :=
  m.owners.length < 2 ^ 32 ∧ m.signers.length < 2 ^ 32 ∧ ∀ p ∈ m.owners, p.length = 32

instance (m : Multisig) : Decidable (WFMultisig m) := by
  unfold WFMultisig; infer_instance

/-! ### Inversion lemmas: a successful read determines the consumed bytes -/

theorem readByte_inv {l : List Byte} {b : Byte} {r : List Byte}
    (h : readByte l = some (b, r)) : l = b :: r := by
  cases l with
  | nil => simp [readByte] at h
  | cons x xs => simp [readByte] at h; simp [h.1, h.2]

theorem readBytes_inv : ∀ {n : Nat} {l v r : List Byte},
    readBytes n l = some (v, r) → l = v ++ r ∧ v.length = n := by
  intro n
  induction n with
  | zero => intro l v r h; simp [readBytes] at h; simp [h.1, h.2]
  | succ n ih =>
    intro l v r h
    cases l with
    | nil => simp [readBytes] at h
    | cons x xs =>
      simp only [readBytes] at h
      cases hrec : readBytes n xs with
      | none => rw [hrec] at h; simp at h
      | some p =>
        obtain ⟨v0, r0⟩ := p
        rw [hrec] at h
        simp at h
        obtain ⟨hv, hr⟩ := h
        obtain ⟨he, hl⟩ := ih hrec
        subst hv hr
        simp [he, hl]

theorem readU32_inv {l : List Byte} {n : Nat} {r : List Byte}
    (h : readU32 l = some (n, r)) : l = encodeU32 n ++ r ∧ n < 2 ^ 32 := by
  match l with
  | [] => simp [readU32] at h
  | [_] => simp [readU32] at h
  | [_, _] => simp [readU32] at h
  | [_, _, _] => simp [readU32] at h
  | b0 :: b1 :: b2 :: b3 :: rest =>
    simp only [readU32, Option.some.injEq, Prod.mk.injEq] at h
    obtain ⟨hn, hr⟩ := h
    have h0 := b0.isLt
    have h1 := b1.isLt
    have h2 := b2.isLt
    have h3 := b3.isLt
    subst hr
    constructor
    · simp only [encodeU32, natToByte, List.cons_append, List.nil_append, List.cons.injEq]
      refine ⟨?_, ?_, ?_, ?_, trivial⟩ <;> (apply Fin.ext; simp only []; omega)
    · omega

theorem readU64_inv {l : List Byte} {n : Nat} {r : List Byte}
    (h : readU64 l = some (n, r)) : l = encodeU64 n ++ r ∧ n < 2 ^ 64 := by
  match l with
  | [] => simp [readU64] at h
  | [_] => simp [readU64] at h
  | [_, _] => simp [readU64] at h
  | [_, _, _] => simp [readU64] at h
  | [_, _, _, _] => simp [readU64] at h
  | [_, _, _, _, _] => simp [readU64] at h
  | [_, _, _, _, _, _] => simp [readU64] at h
  | [_, _, _, _, _, _, _] => simp [readU64] at h
  | b0 :: b1 :: b2 :: b3 :: b4 :: b5 :: b6 :: b7 :: rest =>
    simp only [readU64, Option.some.injEq, Prod.mk.injEq] at h
    obtain ⟨hn, hr⟩ := h
    have h0 := b0.isLt
    have h1 := b1.isLt
    have h2 := b2.isLt
    have h3 := b3.isLt
    have h4 := b4.isLt
    have h5 := b5.isLt
    have h6 := b6.isLt
    have h7 := b7.isLt
    subst hr
    constructor
    · simp only [encodeU64, natToByte, List.cons_append, List.nil_append, List.cons.injEq]
      refine ⟨?_, ?_, ?_, ?_, ?_, ?_, ?_, ?_, trivial⟩ <;> (apply Fin.ext; simp only []; omega)
    · omega

theorem readBool_inv {l : List Byte} {b : Bool} {r : List Byte}
    (h : readBool l = some (b, r)) : l = boolByte b :: r := by
  cases l with
  | nil => simp [readBool] at h
  | cons x xs =>
    simp only [readBool] at h
    by_cases h0 : x.val = 0
    · simp [h0] at h
      obtain ⟨hb, hr⟩ := h
      subst hb hr
      have : x = boolByte false := by apply Fin.ext; simp [h0, boolByte]
      rw [this]
    · by_cases h1 : x.val = 1
      · simp [h0, h1] at h
        obtain ⟨hb, hr⟩ := h
        subst hb hr
        have : x = boolByte true := by apply Fin.ext; simp [h1, boolByte]
        rw [this]
      · simp [h0, h1] at h

theorem readList_inv {α : Type} {p : List Byte → Option (α × List Byte)}
    (enc : α → List Byte)
    (hp : ∀ {l a r}, p l = some (a, r) → l = enc a ++ r) :
    ∀ {n : Nat} {l : List Byte} {vs : List α} {r : List Byte},
    readList p n l = some (vs, r) → l = (vs.map enc).flatten ++ r ∧ vs.length = n := by
  intro n
  induction n with
  | zero => intro l vs r h; simp [readList] at h; simp [h.1, h.2]
  | succ n ih =>
    intro l vs r h
    simp only [readList] at h
    cases hp1 : p l with
    | none => rw [hp1] at h; simp at h
    | some q =>
      obtain ⟨a, r1⟩ := q
      rw [hp1] at h
      simp only [] at h
      cases hrec : readList p n r1 with
      | none => rw [hrec] at h; simp at h
      | some q2 =>
        obtain ⟨as, r2⟩ := q2
        rw [hrec] at h
        simp at h
        obtain ⟨hv, hr⟩ := h
        obtain ⟨he, hl⟩ := ih hrec
        subst hv hr
        simp [hp hp1, he, hl]

theorem readList_prop {α : Type} {p : List Byte → Option (α × List Byte)}
    {Q : α → Prop} (hp : ∀ {l a r}, p l = some (a, r) → Q a) :
    ∀ {n : Nat} {l : List Byte} {vs : List α} {r : List Byte},
    readList p n l = some (vs, r) → ∀ a ∈ vs, Q a := by
  intro n
  induction n with
  | zero => intro l vs r h; simp [readList] at h; simp [h.1]
  | succ n ih =>
    intro l vs r h
    simp only [readList] at h
    cases hp1 : p l with
    | none => rw [hp1] at h; simp at h
    | some q =>
      obtain ⟨a, r1⟩ := q
      rw [hp1] at h
      simp only [] at h
      cases hrec : readList p n r1 with
      | none => rw [hrec] at h; simp at h
      | some q2 =>
        obtain ⟨as, r2⟩ := q2
        rw [hrec] at h
        simp at h
        obtain ⟨hv, _⟩ := h
        subst hv
        intro x hx
        rcases List.mem_cons.mp hx with hxa | hxs
        · exact hxa ▸ hp hp1
        · exact ih hrec x hxs

/-! ### Forward lemmas: reading back what was encoded -/

theorem readU32_encode {n : Nat} (h : n < 2 ^ 32) (r : List Byte) :
    readU32 (encodeU32 n ++ r) = some (n, r) := by
  have hval : (natToByte n).val + 2 ^ 8 * (natToByte (n / 2 ^ 8)).val +
      2 ^ 16 * (natToByte (n / 2 ^ 16)).val + 2 ^ 24 * (natToByte (n / 2 ^ 24)).val = n := by
    dsimp only [natToByte]
    omega
  simp only [encodeU32, List.cons_append, List.nil_append, readU32, hval]

theorem readU64_encode {n : Nat} (h : n < 2 ^ 64) (r : List Byte) :
    readU64 (encodeU64 n ++ r) = some (n, r) := by
  have hval : (natToByte n).val + 2 ^ 8 * (natToByte (n / 2 ^ 8)).val +
      2 ^ 16 * (natToByte (n / 2 ^ 16)).val + 2 ^ 24 * (natToByte (n / 2 ^ 24)).val +
      2 ^ 32 * (natToByte (n / 2 ^ 32)).val + 2 ^ 40 * (natToByte (n / 2 ^ 40)).val +
      2 ^ 48 * (natToByte (n / 2 ^ 48)).val + 2 ^ 56 * (natToByte (n / 2 ^ 56)).val = n := by
    dsimp only [natToByte]
    omega
  simp only [encodeU64, List.cons_append, List.nil_append, readU64, hval]

theorem readBytes_append : ∀ {v : List Byte} (r : List Byte),
    readBytes v.length (v ++ r) = some (v, r) := by
  intro v
  induction v with
  | nil => intro r; simp [readBytes]
  | cons x xs ih => intro r; simp [readBytes, ih r]

theorem readBool_encode (b : Bool) (r : List Byte) :
    readBool (boolByte b :: r) = some (b, r) := by
  cases b <;> simp [readBool, boolByte]

theorem readList_encode {α : Type} {p : List Byte → Option (α × List Byte)}
    {enc : α → List Byte} {P : α → Prop}
    (hp : ∀ (a : α) (r : List Byte), P a → p (enc a ++ r) = some (a, r)) :
    ∀ (vs : List α) (r : List Byte), (∀ a ∈ vs, P a) →
    readList p vs.length ((vs.map enc).flatten ++ r) = some (vs, r) := by
  intro vs
  induction vs with
  | nil => intro r _; simp [readList]
  | cons a as ih =>
    intro r hP
    have ha : P a := hP a (List.mem_cons_self a as)
    have has : ∀ x ∈ as, P x := fun x hx => hP x (List.mem_cons_of_mem a hx)
    simp only [List.length_cons, List.map_cons, List.flatten_cons, List.append_assoc, readList]
    rw [hp a _ ha]
    simp only []
    rw [ih r has]

theorem flatten_map_singleton {α β : Type} (f : α → β) (l : List α) :
    (l.map (fun a => [f a])).flatten = l.map f := by
  induction l with
  | nil => rfl
  | cons x xs ih => simp [ih]

/-! ### Record round trip -/

/-- Decoding is canonical: a successful `try_from_slice` determines the
input bytes as the serialization of the decoded record, and the decoded
record is well formed. -/
theorem deserializeMultisig_inv {l : List Byte} {m : Multisig}
    (h : deserializeMultisig l = some m) :
    l = serializeMultisig m ∧ WFMultisig m := by
  simp only [deserializeMultisig] at h
  cases h1 : readU32 l with
  | none => rw [h1] at h; simp at h
  | some q1 =>
    obtain ⟨n, r1⟩ := q1
    rw [h1] at h
    simp only [] at h
    cases h2 : readList (readBytes 32) n r1 with
    | none => rw [h2] at h; simp at h
    | some q2 =>
      obtain ⟨owners, r2⟩ := q2
      rw [h2] at h
      simp only [] at h
      cases h3 : readByte r2 with
      | none => rw [h3] at h; simp at h
      | some q3 =>
        obtain ⟨threshold, r3⟩ := q3
        rw [h3] at h
        simp only [] at h
        cases h4 : readU32 r3 with
        | none => rw [h4] at h; simp at h
        | some q4 =>
          obtain ⟨k, r4⟩ := q4
          rw [h4] at h
          simp only [] at h
          cases h5 : readList readBool k r4 with
          | none => rw [h5] at h; simp at h
          | some q5 =>
            obtain ⟨signers, r5⟩ := q5
            rw [h5] at h
            simp only [] at h
            by_cases h6 : r5 = []
            · simp [h6] at h
              subst h
              obtain ⟨e1, hn⟩ := readU32_inv h1
              obtain ⟨e2, hno⟩ :=
                readList_inv (fun a => a) (fun {l a r} hr => (readBytes_inv hr).1) h2
              have e3 := readByte_inv h3
              obtain ⟨e4, hk⟩ := readU32_inv h4
              obtain ⟨e5, hks⟩ :=
                readList_inv (fun b => [boolByte b])
                  (fun {l a r} hr => readBool_inv hr) h5
              have howners : ∀ p ∈ owners, p.length = 32 :=
                readList_prop (fun {l a r} hr => (readBytes_inv hr).2) h2
              constructor
              · rw [e1, e2, e3, e4, e5, h6]
                simp only [serializeMultisig, hno, hks, List.map_id,
                  flatten_map_singleton]
                simp
              · exact ⟨hno ▸ hn, hks ▸ hk, howners⟩
            · simp [h6] at h

/-- Serializing a well-formed record and decoding it recovers the record. -/
theorem deserializeMultisig_serialize {m : Multisig} (h : WFMultisig m) :
    deserializeMultisig (serializeMultisig m) = some m := by
  obtain ⟨hno, hks, howners⟩ := h
  have hread1 : readU32 (serializeMultisig m) =
      some (m.owners.length, m.owners.flatten ++
        ([m.threshold] ++ (encodeU32 m.signers.length ++ m.signers.map boolByte))) := by
    simp only [serializeMultisig, List.append_assoc]
    exact readU32_encode hno _
  have hread2 : readList (readBytes 32) m.owners.length
      (m.owners.flatten ++
        ([m.threshold] ++ (encodeU32 m.signers.length ++ m.signers.map boolByte))) =
      some (m.owners,
        [m.threshold] ++ (encodeU32 m.signers.length ++ m.signers.map boolByte)) := by
    have hp : ∀ (a : Pubkey) (r : List Byte), a.length = 32 →
        readBytes 32 (id a ++ r) = some (a, r) := by
      intro a r ha
      simp only [id]
      rw [← ha]
      exact readBytes_append r
    have hl := readList_encode hp m.owners
      ([m.threshold] ++ (encodeU32 m.signers.length ++ m.signers.map boolByte)) howners
    simpa using hl
  have hread4 : readU32 (encodeU32 m.signers.length ++ m.signers.map boolByte) =
      some (m.signers.length, m.signers.map boolByte) := readU32_encode hks _
  have hread5 : readList readBool m.signers.length (m.signers.map boolByte) =
      some (m.signers, []) := by
    have hp : ∀ (b : Bool) (r : List Byte), True →
        readBool ((fun b => [boolByte b]) b ++ r) = some (b, r) := by
      intro b r _
      exact readBool_encode b r
    have hl := readList_encode hp m.signers [] (fun _ _ => trivial)
    rw [flatten_map_singleton] at hl
    simpa using hl
  simp only [deserializeMultisig]
  rw [hread1]
  simp only []
  rw [hread2]
  simp only []
  rw [show readByte ([m.threshold] ++
      (encodeU32 m.signers.length ++ m.signers.map boolByte)) =
      some (m.threshold, encodeU32 m.signers.length ++ m.signers.map boolByte) from rfl]
  simp only []
  rw [hread4]
  simp only []
  rw [hread5]
  simp only []
  simp

/-! ### Instruction codec round trip -/

/-- C8: for every byte sequence on which `try_from_slice` for
`MultisigInstruction` succeeds, re-serializing the decoded command
reproduces the input bytes exactly. -/
theorem encodeInstruction_decodeInstruction {b : List Byte} {c : MultisigInstruction}
    (h : decodeInstruction b = some c) : encodeInstruction c = b := by
  cases b with
  | nil => simp [decodeInstruction] at h
  | cons t r =>
    simp only [decodeInstruction] at h
    by_cases ht0 : t.val = 0
    · simp only [ht0, if_pos rfl] at h
      cases h1 : readU32 r with
      | none => rw [h1] at h; simp at h
      | some q1 =>
        obtain ⟨n, r1⟩ := q1
        rw [h1] at h
        simp only [] at h
        cases h2 : readList (readBytes 32) n r1 with
        | none => rw [h2] at h; simp at h
        | some q2 =>
          obtain ⟨owners, r2⟩ := q2
          rw [h2] at h
          simp only [] at h
          cases h3 : readByte r2 with
          | none => rw [h3] at h; simp at h
          | some q3 =>
            obtain ⟨threshold, r3⟩ := q3
            rw [h3] at h
            simp only [] at h
            by_cases h4 : r3 = []
            · simp [h4] at h
              subst h
              obtain ⟨e1, hn⟩ := readU32_inv h1
              obtain ⟨e2, hno⟩ :=
                readList_inv (fun a => a) (fun {l a r} hr => (readBytes_inv hr).1) h2
              have e3 := readByte_inv h3
              have htz : t = (0 : Byte) := by apply Fin.ext; simp [ht0]
              rw [htz, e1, e2, e3, h4]
              simp [encodeInstruction, hno]
            · simp [h4] at h
    · by_cases ht1 : t.val = 1
      · simp only [if_neg ht0, if_pos ht1] at h
        by_cases hr : r = []
        · simp [hr] at h
          subst h
          have htz : t = (1 : Byte) := by apply Fin.ext; simp [ht1]
          rw [htz, hr]
          rfl
        · simp [hr] at h
      · by_cases ht2 : t.val = 2
        · simp only [if_neg ht0, if_neg ht1, if_pos ht2] at h
          cases h1 : readU64 r with
          | none => rw [h1] at h; simp at h
          | some q1 =>
            obtain ⟨amount, r1⟩ := q1
            rw [h1] at h
            simp only [] at h
            cases h2 : readBytes 32 r1 with
            | none => rw [h2] at h; simp at h
            | some q2 =>
              obtain ⟨destination, r2⟩ := q2
              rw [h2] at h
              simp only [] at h
              by_cases h3 : r2 = []
              · simp [h3] at h
                subst h
                obtain ⟨e1, ha⟩ := readU64_inv h1
                obtain ⟨e2, _⟩ := readBytes_inv h2
                have htz : t = (2 : Byte) := by apply Fin.ext; simp [ht2]
                rw [htz, e1, e2, h3]
                simp [encodeInstruction]
              · simp [h3] at h
        · simp [ht0, ht1, ht2] at h

/-! ### Engine helper lemmas -/

theorem serializeMultisig_length (m : Multisig) :
    (serializeMultisig m).length = 9 + m.owners.flatten.length + m.signers.length := by
  simp [serializeMultisig, encodeU32]
  omega

/-- Unfolding of the success path of `process_execute`: with all
validations passing, quorum reached and sufficient balance, the result is
success, the source is debited, the destination credited modulo `2 ^ 64`,
and the record is re-serialized with every approval flag reset. -/
theorem processExecute_success {msAcc destAcc sysAcc : AccountInfo} {amount : Nat}
    {destination : Pubkey} {m : Multisig}
    (hw : msAcc.isWritable = true)
    (hd : destAcc.key = destination)
    (hs : sysAcc.key = systemProgramId)
    (hm : deserializeMultisig msAcc.data = some m)
    (hlen : m.signers.length = m.owners.length)
    (hq : m.threshold.val ≤ m.signers.count true)
    (hb : amount ≤ msAcc.lamports) :
    processExecute msAcc destAcc sysAcc amount destination =
      (none,
       { msAcc with
           lamports := msAcc.lamports - amount,
           data := serializeMultisig
             { m with signers := List.replicate m.owners.length false } },
       { destAcc with lamports := (destAcc.lamports + amount) % 2 ^ 64 }) := by
  have hdata : msAcc.data = serializeMultisig m := (deserializeMultisig_inv hm).1
  have hqn : ¬ m.signers.count true < m.threshold.val := not_lt.mpr hq
  have hbn : ¬ msAcc.lamports < amount := not_lt.mpr hb
  have hlength :
      (serializeMultisig { m with signers := List.replicate m.owners.length false }).length =
        msAcc.data.length := by
    rw [hdata, serializeMultisig_length, serializeMultisig_length]
    simp [hlen]
  have hwrite :
      writeBytes (serializeMultisig { m with signers := List.replicate m.owners.length false })
        msAcc.data =
      some (serializeMultisig { m with signers := List.replicate m.owners.length false }) := by
    unfold writeBytes
    rw [hlength]
    simp
  simp only [processExecute, hw, Bool.not_true, Bool.false_eq_true, if_false, hd, hs,
    ne_eq, not_true_eq_false, if_neg, hm]
  simp only [if_neg hqn, if_neg hbn]
  simp only [hwrite]

/-! ### Concrete fixtures for witnesses and counterexamples -/

/-- A concrete owner key. -/
def keyA : Pubkey := List.replicate 32 (3 : Byte)

/-- A second concrete owner key. -/
def keyB : Pubkey := List.replicate 32 (4 : Byte)

/-- A concrete destination key. -/
def keyD : Pubkey := List.replicate 32 (7 : Byte)

/-- A concrete system program account. -/
def sysAccount : AccountInfo := ⟨systemProgramId, false, false, 1, []⟩

/-- A concrete destination account with the given balance. -/
def destAccount (bal : Nat) : AccountInfo := ⟨keyD, false, true, bal, []⟩

/-- A concrete multisig account holding the given balance and record. -/
def msAccount (bal : Nat) (m : Multisig) : AccountInfo :=
  ⟨List.replicate 32 (9 : Byte), false, true, bal, serializeMultisig m⟩

/-- Unfolding of the under-quorum failure path of `process_execute`. -/
theorem processExecute_underquorum {msAcc destAcc sysAcc : AccountInfo} {amount : Nat}
    {destination : Pubkey} {m : Multisig}
    (hw : msAcc.isWritable = true)
    (hd : destAcc.key = destination)
    (hs : sysAcc.key = systemProgramId)
    (hm : deserializeMultisig msAcc.data = some m)
    (hq : m.signers.count true < m.threshold.val) :
    processExecute msAcc destAcc sysAcc amount destination =
      (some ProgramError.insufficientFunds, msAcc, destAcc) := by
  simp only [processExecute, hw, Bool.not_true, Bool.false_eq_true, if_false, hd, hs,
    ne_eq, not_true_eq_false, if_neg, hm]
  simp only [if_pos hq]

/-- Success inversion for `process_sign`: a successful run determines the
signer flag, the decoded record, the located owner index, and the final
account. -/
theorem processSign_ok {signer msAcc acc1 : AccountInfo}
    (h : processSign signer msAcc = .ok acc1) :
    signer.isSigner = true ∧
    ∃ m index,
      deserializeMultisig msAcc.data = some m ∧
      m.owners.findIdx? (fun owner => owner = signer.key) = some index ∧
      index < m.signers.length ∧
      acc1 = { msAcc with
                 data := serializeMultisig { m with signers := m.signers.set index true } } := by
  simp only [processSign] at h
  by_cases hsg : signer.isSigner
  · simp only [hsg, Bool.not_true, Bool.false_eq_true, if_false] at h
    cases hm : deserializeMultisig msAcc.data with
    | none => rw [hm] at h; simp at h
    | some m =>
      rw [hm] at h
      simp only [] at h
      cases hidx : m.owners.findIdx? (fun owner => owner = signer.key) with
      | none => rw [hidx] at h; simp at h
      | some index =>
        rw [hidx] at h
        simp only [] at h
        by_cases hle : m.signers.length ≤ index
        · rw [if_pos hle] at h; simp at h
        · rw [if_neg hle] at h
          have hdata : msAcc.data = serializeMultisig m := (deserializeMultisig_inv hm).1
          have hlength :
              (serializeMultisig { m with signers := m.signers.set index true }).length =
                msAcc.data.length := by
            rw [hdata, serializeMultisig_length, serializeMultisig_length]
            simp
          rw [if_neg (by omega : ¬ msAcc.data.length <
            (serializeMultisig { m with signers := m.signers.set index true }).length)] at h
          have hwrite :
              writeBytes (serializeMultisig { m with signers := m.signers.set index true })
                msAcc.data =
              some (serializeMultisig { m with signers := m.signers.set index true }) := by
            unfold writeBytes
            rw [hlength]
            simp
          rw [hwrite] at h
          simp only [Except.ok.injEq] at h
          exact ⟨hsg, m, index, rfl, hidx, by omega, h.symm⟩
  · simp only [Bool.not_eq_true] at hsg
    simp [hsg] at h

/-- Forward unfolding of the success path of `process_sign`. -/
theorem processSign_ok_build {signer msAcc : AccountInfo} {m : Multisig} {index : Nat}
    (hsg : signer.isSigner = true)
    (hm : deserializeMultisig msAcc.data = some m)
    (hidx : m.owners.findIdx? (fun owner => owner = signer.key) = some index)
    (hlt : index < m.signers.length) :
    processSign signer msAcc =
      .ok { msAcc with
              data := serializeMultisig { m with signers := m.signers.set index true } } := by
  have hdata : msAcc.data = serializeMultisig m := (deserializeMultisig_inv hm).1
  have hlength :
      (serializeMultisig { m with signers := m.signers.set index true }).length =
        msAcc.data.length := by
    rw [hdata, serializeMultisig_length, serializeMultisig_length]
    simp
  have hwrite :
      writeBytes (serializeMultisig { m with signers := m.signers.set index true })
        msAcc.data =
      some (serializeMultisig { m with signers := m.signers.set index true }) := by
    unfold writeBytes
    rw [hlength]
    simp
  simp only [processSign, hsg, Bool.not_true, Bool.false_eq_true, if_false, hm, hidx]
  rw [if_neg (by omega : ¬ m.signers.length ≤ index)]
  rw [if_neg (by omega : ¬ msAcc.data.length <
    (serializeMultisig { m with signers := m.signers.set index true }).length)]
  rw [hwrite]

/-- Success inversion for `process_execute`: a successful run determines
the validation facts, the decoded record, the lamport movements and the
re-serialized record. -/
theorem processExecute_ok {msAcc destAcc sysAcc : AccountInfo} {amount : Nat}
    {destination : Pubkey} {msAcc1 destAcc1 : AccountInfo}
    (h : processExecute msAcc destAcc sysAcc amount destination = (none, msAcc1, destAcc1)) :
    msAcc.isWritable = true ∧ destAcc.key = destination ∧ sysAcc.key = systemProgramId ∧
    ∃ m, deserializeMultisig msAcc.data = some m ∧
      m.threshold.val ≤ m.signers.count true ∧
      amount ≤ msAcc.lamports ∧
      msAcc1 = { msAcc with
                   lamports := msAcc.lamports - amount,
                   data := serializeMultisig
                       { m with signers := List.replicate m.owners.length false } ++
                     msAcc.data.drop (serializeMultisig
                       { m with signers := List.replicate m.owners.length false }).length } ∧
      destAcc1 = { destAcc with lamports := (destAcc.lamports + amount) % 2 ^ 64 } := by
  simp only [processExecute] at h
  by_cases hw : msAcc.isWritable
  · simp only [hw, Bool.not_true, Bool.false_eq_true, if_false] at h
    by_cases hd : destAcc.key = destination
    · rw [if_neg (by simp [hd])] at h
      by_cases hs : sysAcc.key = systemProgramId
      · rw [if_neg (by simp [hs])] at h
        cases hm : deserializeMultisig msAcc.data with
        | none => rw [hm] at h; simp at h
        | some m =>
          rw [hm] at h
          simp only [] at h
          by_cases hq : m.signers.count true < m.threshold.val
          · rw [if_pos hq] at h; simp at h
          · rw [if_neg hq] at h
            by_cases hb : msAcc.lamports < amount
            · rw [if_pos hb] at h; simp at h
            · rw [if_neg hb] at h
              cases hwb : writeBytes
                  (serializeMultisig { m with signers := List.replicate m.owners.length false })
                  msAcc.data with
              | none => rw [hwb] at h; simp at h
              | some data1 =>
                rw [hwb] at h
                simp only [Prod.mk.injEq] at h
                obtain ⟨_, hms, hdest⟩ := h
                refine ⟨hw, hd, hs, m, rfl, by omega, by omega, ?_, hdest.symm⟩
                unfold writeBytes at hwb
                by_cases hfit : (serializeMultisig
                    { m with signers := List.replicate m.owners.length false }).length ≤
                    msAcc.data.length
                · rw [if_pos hfit] at hwb
                  simp only [Option.some.injEq] at hwb
                  rw [← hms, ← hwb]
                  simp [hw]
                · rw [if_neg hfit] at hwb
                  simp at hwb
      · simp [hs] at h
    · simp [hd] at h
  · simp [hw] at h

/-! ### C1 -/

/-- C1 counterexample: the claim asserts that an under-quorum Execute
fails with an error kind distinct from the `InsufficientFunds` kind used
for a balance shortfall. On the code it does not: an under-quorum
invocation (threshold 1, no approvals, ample balance) and a
balance-shortfall invocation (quorum reached, balance 10 < amount 50)
both return exactly `ProgramError::InsufficientFunds`; the source has no
separate insufficient-authorizations error kind. -/
theorem execute_underquorum_error_not_distinct :
    (processExecute (msAccount 100 ⟨[keyA], 1, [false]⟩) (destAccount 0) sysAccount
      50 keyD).1 = some ProgramError.insufficientFunds ∧
    (processExecute (msAccount 10 ⟨[keyA], 1, [true]⟩) (destAccount 0) sysAccount
      50 keyD).1 = some ProgramError.insufficientFunds := by
  constructor <;> decide

/-- C1 (amended): for every record and every Execute invocation passing
the account validations, if the number of true approval flags is strictly
below the threshold then Execute fails with `ProgramError::InsufficientFunds`
(the code reuses the balance-shortfall kind for insufficient
authorizations) and the source account, destination account, and hence
the approval bitmap are all unchanged. -/
theorem execute_underquorum_fails {msAcc destAcc sysAcc : AccountInfo} {amount : Nat}
    {destination : Pubkey} {m : Multisig}
    (hw : msAcc.isWritable = true)
    (hd : destAcc.key = destination)
    (hs : sysAcc.key = systemProgramId)
    (hm : deserializeMultisig msAcc.data = some m)
    (hq : m.signers.count true < m.threshold.val) :
    processExecute msAcc destAcc sysAcc amount destination =
      (some ProgramError.insufficientFunds, msAcc, destAcc) := by
  simp only [processExecute, hw, Bool.not_true, Bool.false_eq_true, if_false, hd, hs,
    ne_eq, not_true_eq_false, if_neg, hm]
  simp only [if_pos hq]

/-- C1 witness: the amended theorem applied to a concrete under-quorum
invocation. -/
theorem execute_underquorum_fails_witness :
    processExecute (msAccount 100 ⟨[keyA], 1, [false]⟩) (destAccount 0) sysAccount 50 keyD =
      (some ProgramError.insufficientFunds, msAccount 100 ⟨[keyA], 1, [false]⟩,
       destAccount 0) :=
  execute_underquorum_fails (m := ⟨[keyA], 1, [false]⟩)
    (by decide) (by decide) (by decide) (by decide) (by decide)

/-! ### C2 -/

/-- C2 counterexample: with quorum met and sufficient source balance, a
successful Execute crediting a destination that holds `2 ^ 64 - 1`
lamports with amount 1 wraps the destination balance to 0 instead of
increasing it by exactly 1: the credit is a wrapping u64 addition. -/
theorem execute_credit_overflow :
    (processExecute (msAccount 100 ⟨[keyA], 1, [true]⟩) (destAccount (2 ^ 64 - 1)) sysAccount
      1 keyD).1 = none ∧
    (processExecute (msAccount 100 ⟨[keyA], 1, [true]⟩) (destAccount (2 ^ 64 - 1)) sysAccount
      1 keyD).2.2.lamports = 0 ∧
    (processExecute (msAccount 100 ⟨[keyA], 1, [true]⟩) (destAccount (2 ^ 64 - 1)) sysAccount
      1 keyD).2.2.lamports ≠ 2 ^ 64 - 1 + 1 := by
  refine ⟨by decide, by decide, by decide⟩

/-- C2 (amended): for every record with quorum reached and sufficient
controlled balance (and passing account validations), Execute succeeds,
decreases the source balance by exactly `amount`, credits the destination
with `(old + amount) % 2 ^ 64` — exactly `amount` more whenever the sum
does not overflow u64, which is the stated hypothesis here — and the
persisted record decodes with every approval flag reset to `false`. -/
theorem execute_success_effects {msAcc destAcc sysAcc : AccountInfo} {amount : Nat}
    {destination : Pubkey} {m : Multisig}
    (hw : msAcc.isWritable = true)
    (hd : destAcc.key = destination)
    (hs : sysAcc.key = systemProgramId)
    (hm : deserializeMultisig msAcc.data = some m)
    (hlen : m.signers.length = m.owners.length)
    (hq : m.threshold.val ≤ m.signers.count true)
    (hb : amount ≤ msAcc.lamports)
    (hov : destAcc.lamports + amount < 2 ^ 64) :
    ∃ msAcc1 destAcc1,
      processExecute msAcc destAcc sysAcc amount destination = (none, msAcc1, destAcc1) ∧
      msAcc1.lamports = msAcc.lamports - amount ∧
      destAcc1.lamports = destAcc.lamports + amount ∧
      deserializeMultisig msAcc1.data =
        some { m with signers := List.replicate m.owners.length false } := by
  refine ⟨_, _, processExecute_success hw hd hs hm hlen hq hb, rfl, ?_, ?_⟩
  · exact Nat.mod_eq_of_lt hov
  · obtain ⟨hno, hks, howners⟩ := (deserializeMultisig_inv hm).2
    exact deserializeMultisig_serialize ⟨hno, by simpa using hno, howners⟩

/-- C2 witness: the amended theorem at the concrete scenario of the spec,
owners `[A, B]`, threshold 2, both approved, balance 1050, amount 50. -/
theorem execute_success_effects_witness :
    ∃ msAcc1 destAcc1,
      processExecute (msAccount 1050 ⟨[keyA, keyB], 2, [true, true]⟩) (destAccount 0)
        sysAccount 50 keyD = (none, msAcc1, destAcc1) ∧
      msAcc1.lamports = (msAccount 1050 ⟨[keyA, keyB], 2, [true, true]⟩).lamports - 50 ∧
      destAcc1.lamports = (destAccount 0).lamports + 50 ∧
      deserializeMultisig msAcc1.data =
        some { (⟨[keyA, keyB], 2, [true, true]⟩ : Multisig) with
                 signers := List.replicate ([keyA, keyB] : List Pubkey).length false } :=
  execute_success_effects (m := ⟨[keyA, keyB], 2, [true, true]⟩)
    (by decide) (by decide) (by decide) (by decide) (by decide) (by decide) (by decide)
    (by decide)

/-! ### C10 -/

/-- C10: in every successful Execute the new destination balance equals
`(old destination balance + amount) % 2 ^ 64`: the credit is an unchecked
wrapping u64 addition with no overflow guard (only the source balance is
checked against `amount`). -/
theorem execute_credit_wraps {msAcc destAcc sysAcc : AccountInfo} {amount : Nat}
    {destination : Pubkey} {msAcc1 destAcc1 : AccountInfo}
    (h : processExecute msAcc destAcc sysAcc amount destination = (none, msAcc1, destAcc1)) :
    destAcc1.lamports = (destAcc.lamports + amount) % 2 ^ 64 := by
  obtain ⟨_, _, _, m, _, _, _, _, hdest⟩ := processExecute_ok h
  rw [hdest]

/-- C10 witness: the theorem at a concrete overflowing credit, where the
destination holds `2 ^ 64 - 3` lamports and receives 7: the result is 4. -/
theorem execute_credit_wraps_witness :
    (processExecute (msAccount 100 ⟨[keyA], 1, [true]⟩) (destAccount (2 ^ 64 - 3)) sysAccount
      7 keyD).2.2.lamports = (2 ^ 64 - 3 + 7) % 2 ^ 64 :=
  @execute_credit_wraps (msAccount 100 ⟨[keyA], 1, [true]⟩) (destAccount (2 ^ 64 - 3))
    sysAccount 7 keyD
    ((processExecute (msAccount 100 ⟨[keyA], 1, [true]⟩)
      (destAccount (2 ^ 64 - 3)) sysAccount 7 keyD).2.1)
    ((processExecute (msAccount 100 ⟨[keyA], 1, [true]⟩)
      (destAccount (2 ^ 64 - 3)) sysAccount 7 keyD).2.2)
    (by decide)

/-! ### C3 -/

/-- C3: every Execute invocation against a record satisfying the data
model invariant `len(signers) = len(owners)` either succeeds with all
three effects applied (debit, wrapping credit, reset record serialized
back) or fails with the two accounts, hence both balances and the
persisted record bytes, entirely unchanged. -/
theorem execute_atomic (msAcc destAcc sysAcc : AccountInfo) (amount : Nat)
    (destination : Pubkey)
    (hwf : ∀ m, deserializeMultisig msAcc.data = some m →
      m.signers.length = m.owners.length) :
    (∃ e, processExecute msAcc destAcc sysAcc amount destination =
        (some e, msAcc, destAcc)) ∨
    (∃ m, deserializeMultisig msAcc.data = some m ∧
       processExecute msAcc destAcc sysAcc amount destination =
         (none,
          { msAcc with
              lamports := msAcc.lamports - amount,
              data := serializeMultisig
                { m with signers := List.replicate m.owners.length false } },
          { destAcc with lamports := (destAcc.lamports + amount) % 2 ^ 64 })) := by
  by_cases hw : msAcc.isWritable
  · by_cases hd : destAcc.key = destination
    · by_cases hs : sysAcc.key = systemProgramId
      · cases hm : deserializeMultisig msAcc.data with
        | none =>
          left
          exact ⟨.borshIoError, by simp [processExecute, hw, hd, hs, hm]⟩
        | some m =>
          by_cases hq : m.signers.count true < m.threshold.val
          · left
            exact ⟨.insufficientFunds, processExecute_underquorum hw hd hs hm hq⟩
          · by_cases hb : msAcc.lamports < amount
            · left
              refine ⟨.insufficientFunds, ?_⟩
              simp only [processExecute, hw, Bool.not_true, Bool.false_eq_true, if_false,
                hd, hs, ne_eq, not_true_eq_false, if_neg, hm]
              simp only [if_neg hq, if_pos hb]
            · right
              exact ⟨m, rfl,
                processExecute_success hw hd hs hm (hwf m hm) (by omega) (by omega)⟩
      · left
        exact ⟨.invalidArgument, by simp [processExecute, hw, hd, hs]⟩
    · left
      exact ⟨.invalidArgument, by simp [processExecute, hw, hd]⟩
  · left
    refine ⟨.invalidAccountData, ?_⟩
    simp only [Bool.not_eq_true] at hw
    simp [processExecute, hw]

/-- C3 witness: the atomicity theorem at a concrete under-quorum
invocation (whose record is well formed). -/
theorem execute_atomic_witness :
    (∃ e, processExecute (msAccount 100 ⟨[keyA], 1, [false]⟩) (destAccount 0) sysAccount
        50 keyD = (some e, msAccount 100 ⟨[keyA], 1, [false]⟩, destAccount 0)) ∨
    (∃ m, deserializeMultisig (msAccount 100 ⟨[keyA], 1, [false]⟩).data = some m ∧
       processExecute (msAccount 100 ⟨[keyA], 1, [false]⟩) (destAccount 0) sysAccount
         50 keyD =
         (none,
          { msAccount 100 ⟨[keyA], 1, [false]⟩ with
              lamports := (msAccount 100 ⟨[keyA], 1, [false]⟩).lamports - 50,
              data := serializeMultisig
                { m with signers := List.replicate m.owners.length false } },
          { destAccount 0 with
              lamports := ((destAccount 0).lamports + 50) % 2 ^ 64 })) := by
  apply execute_atomic
  intro m hm
  rw [(by decide : deserializeMultisig (msAccount 100 ⟨[keyA], 1, [false]⟩).data =
    some (⟨[keyA], 1, [false]⟩ : Multisig))] at hm
  rw [← Option.some.inj hm]
  decide

/-! ### C4 -/

/-- C4 counterexample: the claim names the failure of the replayed
Execute `InsufficientAuthorizations`, an error kind C1 requires to be
distinct from `InsufficientFunds`. On the code the second Execute fails
with exactly `ProgramError::InsufficientFunds` — the same kind a pure
balance shortfall produces — so no distinct kind is reported. -/
theorem execute_replay_error_not_distinct :
    ((processExecute (msAccount 1050 ⟨[keyA, keyB], 2, [true, true]⟩) (destAccount 0)
        sysAccount 50 keyD).1 = none ∧
     (processExecute
        (processExecute (msAccount 1050 ⟨[keyA, keyB], 2, [true, true]⟩) (destAccount 0)
          sysAccount 50 keyD).2.1
        (processExecute (msAccount 1050 ⟨[keyA, keyB], 2, [true, true]⟩) (destAccount 0)
          sysAccount 50 keyD).2.2
        sysAccount 50 keyD).1 = some ProgramError.insufficientFunds) ∧
    (processExecute (msAccount 10 ⟨[keyA, keyB], 2, [true, true]⟩) (destAccount 0)
      sysAccount 50 keyD).1 = some ProgramError.insufficientFunds := by
  refine ⟨⟨by decide, by decide⟩, by decide⟩

/-- C4 (amended): for every record with `1 ≤ threshold` satisfying the
length invariant, after a successful Execute a second Execute against the
resulting multisig account (with any amount and any validly supplied
destination and system accounts, and no intervening Sign) fails with
`ProgramError::InsufficientFunds` — the kind the code reuses for
insufficient authorizations — because the reset left zero true approval
flags; the second invocation changes nothing. -/
theorem execute_replay_prevented {msAcc destAcc sysAcc : AccountInfo} {amount : Nat}
    {destination : Pubkey} {m : Multisig} {msAcc1 destAcc1 : AccountInfo}
    (hm : deserializeMultisig msAcc.data = some m)
    (hlen : m.signers.length = m.owners.length)
    (hthr : 1 ≤ m.threshold.val)
    (h1 : processExecute msAcc destAcc sysAcc amount destination = (none, msAcc1, destAcc1))
    (destAcc2 sysAcc2 : AccountInfo) (amount2 : Nat) (destination2 : Pubkey)
    (hd2 : destAcc2.key = destination2)
    (hs2 : sysAcc2.key = systemProgramId) :
    processExecute msAcc1 destAcc2 sysAcc2 amount2 destination2 =
      (some ProgramError.insufficientFunds, msAcc1, destAcc2) := by
  obtain ⟨hw, hd, hs, m', hm', hq, hb, hms1, hdest1⟩ := processExecute_ok h1
  rw [hm] at hm'
  have hmm : m' = m := (Option.some.inj hm').symm
  subst hmm
  have hdata : msAcc.data = serializeMultisig m' := (deserializeMultisig_inv hm).1
  have hlength :
      (serializeMultisig { m' with signers := List.replicate m'.owners.length false }).length =
        msAcc.data.length := by
    rw [hdata, serializeMultisig_length, serializeMultisig_length]
    simp [hlen]
  have hw1 : msAcc1.isWritable = true := by rw [hms1]; exact hw
  have hdata1 : msAcc1.data =
      serializeMultisig { m' with signers := List.replicate m'.owners.length false } := by
    rw [hms1]
    simp only []
    rw [hlength, List.drop_length, List.append_nil]
  have hm1 : deserializeMultisig msAcc1.data =
      some { m' with signers := List.replicate m'.owners.length false } := by
    rw [hdata1]
    apply deserializeMultisig_serialize
    obtain ⟨hno, hks, howners⟩ := (deserializeMultisig_inv hm).2
    exact ⟨hno, by simpa using hno, howners⟩
  have hq1 : ({ m' with signers := List.replicate m'.owners.length false } : Multisig).signers.count
      true <
      ({ m' with signers := List.replicate m'.owners.length false } : Multisig).threshold.val := by
    simp only []
    have hz : (List.replicate m'.owners.length false).count true = 0 := by
      induction m'.owners.length with
      | zero => rfl
      | succ n ih => simpa [List.replicate_succ] using ih
    omega
  exact processExecute_underquorum hw1 hd2 hs2 hm1 hq1

/-- C4 witness: the amended theorem at the concrete scenario: after the
successful transfer of 50 with both owners approved, a second Execute of
50 against the written-back account fails and changes nothing. -/
theorem execute_replay_prevented_witness :
    processExecute
      ⟨List.replicate 32 (9 : Byte), false, true, 1000,
        serializeMultisig ⟨[keyA, keyB], 2, [false, false]⟩⟩
      (destAccount 99) sysAccount 50 keyD =
      (some ProgramError.insufficientFunds,
       ⟨List.replicate 32 (9 : Byte), false, true, 1000,
         serializeMultisig ⟨[keyA, keyB], 2, [false, false]⟩⟩,
       destAccount 99) :=
  @execute_replay_prevented (msAccount 1050 ⟨[keyA, keyB], 2, [true, true]⟩)
    (destAccount 0) sysAccount 50 keyD ⟨[keyA, keyB], 2, [true, true]⟩
    ⟨List.replicate 32 (9 : Byte), false, true, 1000,
      serializeMultisig ⟨[keyA, keyB], 2, [false, false]⟩⟩
    ⟨keyD, false, true, 50, []⟩
    (by decide) (by decide) (by decide) (by decide)
    (destAccount 99) sysAccount 50 keyD (by decide) (by decide)

/-! ### C9 -/

/-- C9: `process_execute` performs no authentication check: flipping the
transaction-level signer flags of all three supplied accounts changes
neither the produced error nor the balances and data of the resulting
accounts, and no Execute invocation ever fails with
`MissingRequiredSignature`. In particular an invocation with no verified
signature at all succeeds whenever quorum and balance conditions hold. -/
theorem execute_ignores_signer_flags (msAcc destAcc sysAcc : AccountInfo)
    (b1 b2 b3 : Bool) (amount : Nat) (destination : Pubkey) :
    ((processExecute { msAcc with isSigner := b1 } { destAcc with isSigner := b2 }
        { sysAcc with isSigner := b3 } amount destination).1 =
      (processExecute msAcc destAcc sysAcc amount destination).1 ∧
     (processExecute { msAcc with isSigner := b1 } { destAcc with isSigner := b2 }
        { sysAcc with isSigner := b3 } amount destination).2.1.lamports =
      (processExecute msAcc destAcc sysAcc amount destination).2.1.lamports ∧
     (processExecute { msAcc with isSigner := b1 } { destAcc with isSigner := b2 }
        { sysAcc with isSigner := b3 } amount destination).2.1.data =
      (processExecute msAcc destAcc sysAcc amount destination).2.1.data ∧
     (processExecute { msAcc with isSigner := b1 } { destAcc with isSigner := b2 }
        { sysAcc with isSigner := b3 } amount destination).2.2.lamports =
      (processExecute msAcc destAcc sysAcc amount destination).2.2.lamports ∧
     (processExecute { msAcc with isSigner := b1 } { destAcc with isSigner := b2 }
        { sysAcc with isSigner := b3 } amount destination).2.2.data =
      (processExecute msAcc destAcc sysAcc amount destination).2.2.data) ∧
    (processExecute msAcc destAcc sysAcc amount destination).1 ≠
      some ProgramError.missingRequiredSignature := by
  by_cases hw : msAcc.isWritable
  · by_cases hd : destAcc.key = destination
    · by_cases hs : sysAcc.key = systemProgramId
      · cases hm : deserializeMultisig msAcc.data with
        | none => simp [processExecute, hw, hd, hs, hm]
        | some m =>
          by_cases hq : m.signers.count true < m.threshold.val
          · simp [processExecute, hw, hd, hs, hm, hq]
          · by_cases hb : msAcc.lamports < amount
            · simp [processExecute, hw, hd, hs, hm, hq, hb]
            · cases hwb : writeBytes
                  (serializeMultisig { m with signers := List.replicate m.owners.length false })
                  msAcc.data with
              | none => simp [processExecute, hw, hd, hs, hm, hq, hb, hwb]
              | some data1 => simp [processExecute, hw, hd, hs, hm, hq, hb, hwb]
      · simp [processExecute, hw, hd, hs]
    · simp [processExecute, hw, hd]
  · simp only [Bool.not_eq_true] at hw
    simp [processExecute, hw]

/-! ### C6 -/

/-- C6: signing twice in a row with the same owner succeeds both times
and the second Sign returns the account exactly as the first left it:
setting an already-true approval flag is a successful no-op on the whole
persisted record. -/
theorem sign_twice_idempotent {signer msAcc acc1 : AccountInfo}
    (h1 : processSign signer msAcc = .ok acc1) :
    processSign signer acc1 = .ok acc1 := by
  obtain ⟨hsg, m, index, hm, hidx, hlt, hacc⟩ := processSign_ok h1
  subst hacc
  obtain ⟨hno, hks, howners⟩ := (deserializeMultisig_inv hm).2
  have hWF1 : WFMultisig { m with signers := m.signers.set index true } :=
    ⟨hno, by simpa using hks, howners⟩
  have hm1 : deserializeMultisig
      ({ msAcc with
          data := serializeMultisig { m with signers := m.signers.set index true } }).data =
      some { m with signers := m.signers.set index true } :=
    deserializeMultisig_serialize hWF1
  have hlt1 : index <
      ({ m with signers := m.signers.set index true } : Multisig).signers.length := by
    simpa using hlt
  have hrun := processSign_ok_build hsg hm1 hidx hlt1
  rw [hrun]
  simp [List.set_set]

/-- C6 witness: the theorem at a concrete first Sign by owner `keyA`. -/
theorem sign_twice_idempotent_witness :
    processSign ⟨keyA, true, false, 5, []⟩ (msAccount 100 ⟨[keyA], 1, [true]⟩) =
      .ok (msAccount 100 ⟨[keyA], 1, [true]⟩) :=
  @sign_twice_idempotent ⟨keyA, true, false, 5, []⟩ (msAccount 100 ⟨[keyA], 1, [false]⟩)
    (msAccount 100 ⟨[keyA], 1, [true]⟩) (by rfl)

/-- After a successful Execute on a length-invariant record, the multisig
account data is exactly the serialization of the reset record. -/
theorem processExecute_ok_data {msAcc destAcc sysAcc : AccountInfo} {amount : Nat}
    {destination : Pubkey} {msAcc1 destAcc1 : AccountInfo} {m : Multisig}
    (hm : deserializeMultisig msAcc.data = some m)
    (hlen : m.signers.length = m.owners.length)
    (h : processExecute msAcc destAcc sysAcc amount destination = (none, msAcc1, destAcc1)) :
    msAcc1.data =
      serializeMultisig { m with signers := List.replicate m.owners.length false } := by
  obtain ⟨hw, hd, hs, m', hm', hq, hb, hms1, hdest1⟩ := processExecute_ok h
  rw [hm] at hm'
  have hmm : m' = m := (Option.some.inj hm').symm
  subst hmm
  have hdata : msAcc.data = serializeMultisig m' := (deserializeMultisig_inv hm).1
  have hlength :
      (serializeMultisig { m' with signers := List.replicate m'.owners.length false }).length =
        msAcc.data.length := by
    rw [hdata, serializeMultisig_length, serializeMultisig_length]
    simp [hlen]
  rw [hms1]
  simp only []
  rw [hlength, List.drop_length, List.append_nil]

/-- After a successful Execute on a length-invariant record, the multisig
account data decodes to the reset record. -/
theorem processExecute_ok_record {msAcc destAcc sysAcc : AccountInfo} {amount : Nat}
    {destination : Pubkey} {msAcc1 destAcc1 : AccountInfo} {m : Multisig}
    (hm : deserializeMultisig msAcc.data = some m)
    (hlen : m.signers.length = m.owners.length)
    (h : processExecute msAcc destAcc sysAcc amount destination = (none, msAcc1, destAcc1)) :
    deserializeMultisig msAcc1.data =
      some { m with signers := List.replicate m.owners.length false } := by
  rw [processExecute_ok_data hm hlen h]
  apply deserializeMultisig_serialize
  obtain ⟨hno, hks, howners⟩ := (deserializeMultisig_inv hm).2
  exact ⟨hno, by simpa using hno, howners⟩

/-- Success inversion for `process_create`: the validations passed and
the account data is the serialized fresh record followed by the untouched
tail of the buffer. -/
theorem processCreate_ok {acc : AccountInfo} {owners : List Pubkey} {threshold : Byte}
    {acc1 : AccountInfo}
    (h : processCreate acc owners threshold = .ok acc1) :
    acc.isWritable = true ∧ 1 ≤ threshold.val ∧ threshold.val ≤ owners.length ∧
    acc1 = { acc with
               data := serializeMultisig ⟨owners, threshold, List.replicate owners.length false⟩ ++
                 acc.data.drop (serializeMultisig
                   ⟨owners, threshold, List.replicate owners.length false⟩).length } := by
  simp only [processCreate] at h
  by_cases hw : acc.isWritable
  · simp only [hw, Bool.not_true, Bool.false_eq_true, if_false] at h
    by_cases hv : threshold.val = 0 ∨ owners.length < threshold.val
    · rw [if_pos hv] at h; simp at h
    · rw [if_neg hv] at h
      cases hwb : writeBytes
          (serializeMultisig ⟨owners, threshold, List.replicate owners.length false⟩)
          acc.data with
      | none => rw [hwb] at h; simp at h
      | some data1 =>
        rw [hwb] at h
        simp only [Except.ok.injEq] at h
        unfold writeBytes at hwb
        by_cases hfit : (serializeMultisig
            ⟨owners, threshold, List.replicate owners.length false⟩).length ≤ acc.data.length
        · rw [if_pos hfit] at hwb
          simp only [Option.some.injEq] at hwb
          refine ⟨hw, by omega, by omega, ?_⟩
          rw [← h, ← hwb]
          simp [hw]
        · rw [if_neg hfit] at hwb
          simp at hwb
  · simp [hw] at h

/-! ### C7 -/

/-- C7: after every successful operation the persisted record keeps
`len(signers) = len(owners)`, and the owners and threshold fixed at
creation are not changed by Sign or Execute: Create writes the record
with `owners.length` fresh false flags and the given threshold; a
successful Sign yields a record with the same owners, the same threshold
and the same flag count; a successful Execute yields a record with the
same owners, the same threshold and flag count equal to owner count. -/
theorem multisig_invariants :
    (∀ (acc : AccountInfo) (owners : List Pubkey) (threshold : Byte) (acc1 : AccountInfo),
       processCreate acc owners threshold = .ok acc1 →
       ∃ rest, acc1.data =
           serializeMultisig ⟨owners, threshold, List.replicate owners.length false⟩ ++ rest ∧
         (List.replicate owners.length false).length = owners.length) ∧
    (∀ (signer msAcc acc1 : AccountInfo) (m : Multisig),
       deserializeMultisig msAcc.data = some m →
       processSign signer msAcc = .ok acc1 →
       ∃ m1, deserializeMultisig acc1.data = some m1 ∧
         m1.owners = m.owners ∧ m1.threshold = m.threshold ∧
         m1.signers.length = m.signers.length) ∧
    (∀ (msAcc destAcc sysAcc : AccountInfo) (amount : Nat) (destination : Pubkey)
       (m : Multisig) (msAcc1 destAcc1 : AccountInfo),
       deserializeMultisig msAcc.data = some m →
       m.signers.length = m.owners.length →
       processExecute msAcc destAcc sysAcc amount destination = (none, msAcc1, destAcc1) →
       ∃ m1, deserializeMultisig msAcc1.data = some m1 ∧
         m1.owners = m.owners ∧ m1.threshold = m.threshold ∧
         m1.signers.length = m1.owners.length) := by
  refine ⟨?_, ?_, ?_⟩
  · intro acc owners threshold acc1 h
    obtain ⟨hw, h1, h2, hacc⟩ := processCreate_ok h
    exact ⟨_, by rw [hacc], by simp⟩
  · intro signer msAcc acc1 m hm h
    obtain ⟨hsg, m'', index, hm'', hidx, hlt, hacc⟩ := processSign_ok h
    rw [hm] at hm''
    have hmm : m = m'' := Option.some.inj hm''
    rw [← hmm] at hacc
    obtain ⟨hno, hks, howners⟩ := (deserializeMultisig_inv hm).2
    refine ⟨{ m with signers := m.signers.set index true }, ?_, rfl, rfl, by simp⟩
    rw [hacc]
    exact deserializeMultisig_serialize ⟨hno, by simpa using hks, howners⟩
  · intro msAcc destAcc sysAcc amount destination m msAcc1 destAcc1 hm hlen h
    refine ⟨{ m with signers := List.replicate m.owners.length false },
      processExecute_ok_record hm hlen h, rfl, rfl, by simp⟩

/-- C7 witness: the three parts of the invariant theorem at concrete
Create, Sign and Execute runs. -/
theorem multisig_invariants_witness :
    (∃ rest, (msAccount 77 ⟨[keyA], 1, [false]⟩).data =
        serializeMultisig ⟨[keyA], 1, List.replicate ([keyA] : List Pubkey).length false⟩ ++
          rest ∧
      (List.replicate ([keyA] : List Pubkey).length false).length =
        ([keyA] : List Pubkey).length) ∧
    (∃ m1, deserializeMultisig (msAccount 100 ⟨[keyA], 1, [true]⟩).data = some m1 ∧
       m1.owners = (⟨[keyA], 1, [false]⟩ : Multisig).owners ∧
       m1.threshold = (⟨[keyA], 1, [false]⟩ : Multisig).threshold ∧
       m1.signers.length = (⟨[keyA], 1, [false]⟩ : Multisig).signers.length) ∧
    (∃ m1, deserializeMultisig
        (⟨List.replicate 32 (9 : Byte), false, true, 1000,
          serializeMultisig ⟨[keyA, keyB], 2, [false, false]⟩⟩ : AccountInfo).data = some m1 ∧
       m1.owners = (⟨[keyA, keyB], 2, [true, true]⟩ : Multisig).owners ∧
       m1.threshold = (⟨[keyA, keyB], 2, [true, true]⟩ : Multisig).threshold ∧
       m1.signers.length = m1.owners.length) := by
  refine ⟨?_, ?_, ?_⟩
  · exact multisig_invariants.1 (msAccount 77 ⟨[keyA], 1, [true]⟩) [keyA] 1
      (msAccount 77 ⟨[keyA], 1, [false]⟩) (by rfl)
  · exact multisig_invariants.2.1 ⟨keyA, true, false, 5, []⟩
      (msAccount 100 ⟨[keyA], 1, [false]⟩) (msAccount 100 ⟨[keyA], 1, [true]⟩)
      ⟨[keyA], 1, [false]⟩ (by rfl) (by rfl)
  · exact multisig_invariants.2.2 (msAccount 1050 ⟨[keyA, keyB], 2, [true, true]⟩)
      (destAccount 0) sysAccount 50 keyD ⟨[keyA, keyB], 2, [true, true]⟩
      ⟨List.replicate 32 (9 : Byte), false, true, 1000,
        serializeMultisig ⟨[keyA, keyB], 2, [false, false]⟩⟩
      ⟨keyD, false, true, 50, []⟩ (by rfl) (by rfl) (by rfl)

/-! ### C5 -/

/-- The record layout exactly as the claim words it (stated for the
refutation): `[owner_count: u32][owner_count × 32-byte identity]
[threshold: u8][owner_count × 1-byte boolean]`, with no separate length
prefix before the boolean flags. This is the claimed layout, not the
layout the code produces. -/
def claimedRecordLayout (owners : List Pubkey) (threshold : Byte) (flags : List Bool) :
    List Byte :=
  encodeU32 owners.length ++ owners.flatten ++ [threshold] ++ flags.map boolByte

/-- C5 counterexample: a successful Create on a one-owner record persists
42 bytes, not the 38 bytes of the claimed layout: borsh writes a second
u32 length prefix before the boolean flags, so the persisted bytes differ
from the claimed `[owner_count][identities][threshold][booleans]` form. -/
theorem create_layout_counterexample :
    processCreate (msAccount 77 ⟨[keyA], 1, [true]⟩) [keyA] 1 =
      .ok (msAccount 77 ⟨[keyA], 1, [false]⟩) ∧
    (msAccount 77 ⟨[keyA], 1, [false]⟩).data ≠ claimedRecordLayout [keyA] 1 [false] ∧
    (msAccount 77 ⟨[keyA], 1, [false]⟩).data.length = 42 ∧
    (claimedRecordLayout [keyA] 1 [false]).length = 38 := by
  refine ⟨by rfl, by decide, by decide, by decide⟩

/-- C5 (amended): after every successful Create (into an exactly sized
buffer), Sign, or Execute (on a length-invariant record), the persisted
record bytes are exactly
`[owner_count: u32][owner_count × 32-byte identity][threshold: u8]
[flag_count: u32][flag_count × 1-byte boolean]` — the borsh form, which
carries a second u32 length prefix before the boolean flags (with
`flag_count = owner_count` after Create and Execute, and the flag count
preserved by Sign). -/
theorem record_layout :
    (∀ (acc : AccountInfo) (owners : List Pubkey) (threshold : Byte) (acc1 : AccountInfo),
       acc.data.length =
         (serializeMultisig ⟨owners, threshold, List.replicate owners.length false⟩).length →
       processCreate acc owners threshold = .ok acc1 →
       acc1.data = encodeU32 owners.length ++ owners.flatten ++ [threshold] ++
         encodeU32 owners.length ++ (List.replicate owners.length false).map boolByte) ∧
    (∀ (signer msAcc acc1 : AccountInfo) (m : Multisig),
       deserializeMultisig msAcc.data = some m →
       processSign signer msAcc = .ok acc1 →
       ∃ flags : List Bool, flags.length = m.signers.length ∧
         acc1.data = encodeU32 m.owners.length ++ m.owners.flatten ++ [m.threshold] ++
           encodeU32 flags.length ++ flags.map boolByte) ∧
    (∀ (msAcc destAcc sysAcc : AccountInfo) (amount : Nat) (destination : Pubkey)
       (m : Multisig) (msAcc1 destAcc1 : AccountInfo),
       deserializeMultisig msAcc.data = some m →
       m.signers.length = m.owners.length →
       processExecute msAcc destAcc sysAcc amount destination = (none, msAcc1, destAcc1) →
       msAcc1.data = encodeU32 m.owners.length ++ m.owners.flatten ++ [m.threshold] ++
         encodeU32 m.owners.length ++ (List.replicate m.owners.length false).map boolByte) := by
  refine ⟨?_, ?_, ?_⟩
  · intro acc owners threshold acc1 hcap h
    obtain ⟨hw, h1, h2, hacc⟩ := processCreate_ok h
    rw [hacc]
    simp only []
    rw [← hcap, List.drop_length, List.append_nil]
    simp [serializeMultisig]
  · intro signer msAcc acc1 m hm h
    obtain ⟨hsg, m'', index, hm'', hidx, hlt, hacc⟩ := processSign_ok h
    rw [hm] at hm''
    have hmm : m = m'' := Option.some.inj hm''
    rw [← hmm] at hacc
    refine ⟨m.signers.set index true, by simp, ?_⟩
    rw [hacc]
    simp [serializeMultisig]
  · intro msAcc destAcc sysAcc amount destination m msAcc1 destAcc1 hm hlen h
    rw [processExecute_ok_data hm hlen h]
    simp [serializeMultisig]

/-- C5 witness: the three parts of the layout theorem at concrete Create,
Sign and Execute runs. -/
theorem record_layout_witness :
    (msAccount 77 ⟨[keyA], 1, [false]⟩).data =
      encodeU32 ([keyA] : List Pubkey).length ++ ([keyA] : List Pubkey).flatten ++
        [(1 : Byte)] ++ encodeU32 ([keyA] : List Pubkey).length ++
        (List.replicate ([keyA] : List Pubkey).length false).map boolByte ∧
    (∃ flags : List Bool, flags.length = (⟨[keyA], 1, [false]⟩ : Multisig).signers.length ∧
       (msAccount 100 ⟨[keyA], 1, [true]⟩).data =
         encodeU32 (⟨[keyA], 1, [false]⟩ : Multisig).owners.length ++
           (⟨[keyA], 1, [false]⟩ : Multisig).owners.flatten ++
           [(⟨[keyA], 1, [false]⟩ : Multisig).threshold] ++
           encodeU32 flags.length ++ flags.map boolByte) ∧
    (⟨List.replicate 32 (9 : Byte), false, true, 1000,
        serializeMultisig ⟨[keyA, keyB], 2, [false, false]⟩⟩ : AccountInfo).data =
      encodeU32 (⟨[keyA, keyB], 2, [true, true]⟩ : Multisig).owners.length ++
        (⟨[keyA, keyB], 2, [true, true]⟩ : Multisig).owners.flatten ++
        [(⟨[keyA, keyB], 2, [true, true]⟩ : Multisig).threshold] ++
        encodeU32 (⟨[keyA, keyB], 2, [true, true]⟩ : Multisig).owners.length ++
        (List.replicate (⟨[keyA, keyB], 2, [true, true]⟩ : Multisig).owners.length false).map
          boolByte := by
  refine ⟨?_, ?_, ?_⟩
  · exact record_layout.1 (msAccount 77 ⟨[keyA], 1, [true]⟩) [keyA] 1
      (msAccount 77 ⟨[keyA], 1, [false]⟩) (by rfl) (by rfl)
  · exact record_layout.2.1 ⟨keyA, true, false, 5, []⟩
      (msAccount 100 ⟨[keyA], 1, [false]⟩) (msAccount 100 ⟨[keyA], 1, [true]⟩)
      ⟨[keyA], 1, [false]⟩ (by rfl) (by rfl)
  · exact record_layout.2.2 (msAccount 1050 ⟨[keyA, keyB], 2, [true, true]⟩)
      (destAccount 0) sysAccount 50 keyD ⟨[keyA, keyB], 2, [true, true]⟩
      ⟨List.replicate 32 (9 : Byte), false, true, 1000,
        serializeMultisig ⟨[keyA, keyB], 2, [false, false]⟩⟩
      ⟨keyD, false, true, 50, []⟩ (by rfl) (by rfl) (by rfl)

/-! ### C8 witness -/

/-- C8 witness: the round-trip theorem at a concrete Execute command
byte sequence. -/
theorem encodeInstruction_decodeInstruction_witness :
    encodeInstruction (MultisigInstruction.execute 50 keyD) =
      (2 : Byte) :: (encodeU64 50 ++ keyD) :=
  encodeInstruction_decodeInstruction (by decide)

end MultisigWallet
